import Mathlib

/-!
# luax bootstrap (`src/run.c`): decoder, trailer codec, traceback trimming, sequencing

A shallow embedding of the launcher in `src/run.c`.

* C objects are *blocks*: a memory maps a block number to the bytes of that allocation, and a
  pointer to the start of an allocation is its block number.  Two pointers alias exactly when
  they are the same block, an access past the end of a block is undefined behaviour (`none`).
* `char` values are bytes `0 .. 255`; `size_t` is 64 bits wide and `uint32_t` 32 bits wide
  (LP64), with wrap-around written out where the source subtracts.
-/

namespace Luax

/-! ## Machine arithmetic -/

/-- The value of `n - 1` computed in `size_t`: modulo `2 ^ 64`, so that `0 - 1` wraps to
`2 ^ 64 - 1`. -/
def size_pred (n : Nat) : Nat := if n % 2 ^ 64 = 0 then 2 ^ 64 - 1 else n % 2 ^ 64 - 1

/-- The value of `n - 1` computed in `uint32_t`: modulo `2 ^ 32`, so that `0 - 1` wraps to
`2 ^ 32 - 1`. -/
def u32_pred (n : Nat) : Nat := if n % 2 ^ 32 = 0 then 2 ^ 32 - 1 else n % 2 ^ 32 - 1

/-! ## Memory -/

/-- Memory: block number ↦ bytes of the allocation. -/
abbrev Mem := Nat → List Nat

/-- Read `p[i]`; `none` when `i` is outside the allocation. -/
def Mem.load (m : Mem) (p i : Nat) : Option Nat := (m p)[i]?

/-- Write `p[i] = v`; `none` when `i` is outside the allocation. -/
def Mem.store (m : Mem) (p i v : Nat) : Option Mem :=
  if i < (m p).length then some (fun q => if q = p then (m p).set i v else m q) else none

/-! ## `decode` (run.c:123-144) -/

/-- The loop `for (size_t i = 1; i < size-1; i++) output[i] = output[i-1] + input[i];`
entered at index `i` with `n = (size-1) - i` iterations left.  The sum is stored into a `char`,
which keeps its low 8 bits. -/
def decode_loop (input output : Nat) : Nat → Nat → Mem → Option Mem
  | 0, _, m => some m
  | n + 1, i, m =>
    match m.load output (i - 1), m.load input i with
    | some a, some b =>
      match m.store output i ((a + b) % 256) with
      | some m1 => decode_loop input output n (i + 1) m1
      | none => none
    | _, _ => none

/-- The keystream loop of `rc4_runtime`, entered at index `i` with `n` bytes left: byte `i` of
the input is XORed with byte `i` of the keystream, in increasing order of `i`. -/
def rc4_loop (keystream : Nat → Nat) (input output : Nat) : Nat → Nat → Mem → Option Mem
  | 0, _, m => some m
  | n + 1, i, m =>
    match m.load input i with
    | some c =>
      match m.store output i (c ^^^ (keystream i % 256)) with
      | some m1 => rc4_loop keystream input output n (i + 1) m1
      | none => none
    | none => none

/-- Modelled from the spec: `rc4_runtime(input, size, output)` is declared in the crypt library,
whose source is not part of `src/`.  Spec §4.2: "a stream cipher (RC4-family) keyed with a fixed,
build-embedded key, consumes `len-1` bytes of ciphertext and XORs them with a pseudorandom
keystream derived from the key".  The keystream (byte `i` is `keystream i`) stands for the
build-time key, which the spec leaves open. -/
def rc4_runtime (keystream : Nat → Nat) (m : Mem) (input size output : Nat) : Option Mem :=
  rc4_loop keystream input output size 0 m

/-- The function `decode(input, size, output)`: dispatch on the selector `input[size-1]`
(`'-'` is 45, `'#'` is 35).  The `default` arm does nothing and reports nothing. -/
def decode (keystream : Nat → Nat) (m : Mem) (input size output : Nat) : Option Mem :=
  match m.load input (size_pred size) with
  | none => none
  | some sel =>
    if sel = 45 then
      match m.load input 0 with
      | none => none
      | some b =>
        match m.store output 0 b with
        | none => none
        | some m1 => decode_loop input output (size_pred size - 1) 1 m1
    else if sel = 35 then rc4_runtime keystream m input (size_pred size) output
    else some m

/-! ## Reference encodings (from the spec, §8) -/

/-- Forward differences after a previous byte: `e[i] = (s[i] - s[i-1]) mod 256`. -/
def diff_from (prev : Nat) : List Nat → List Nat
  | [] => []
  | b :: rest => (b + 256 - prev) % 256 :: diff_from b rest

/-- The forward-difference encoding of the spec: `e[0] = s[0]`, `e[i] = (s[i] - s[i-1]) mod 256`. -/
def forward_diff : List Nat → List Nat
  | [] => []
  | a :: rest => a :: diff_from a rest

/-- Running sums after a previous output byte. -/
def sum_from (prev : Nat) : List Nat → List Nat
  | [] => []
  | b :: rest => (prev + b) % 256 :: sum_from ((prev + b) % 256) rest

/-- The running sum of a byte sequence: first byte copied, then
`(previous output + input) mod 256`. -/
def running_sum : List Nat → List Nat
  | [] => []
  | a :: rest => a :: sum_from a rest

/-- The bytes XORed with the keystream from position `i` on. -/
def xor_from (keystream : Nat → Nat) (i : Nat) : List Nat → List Nat
  | [] => []
  | c :: rest => (c ^^^ (keystream i % 256)) :: xor_from keystream (i + 1) rest

/-! ## Trailer codec: `t_header`, `letoh` (run.c:51-55, 146-160) -/

/-- Byte order of the host. -/
inductive Endian
  | little
  | big
  deriving DecidableEq, Repr

/-- The value of a `uint32_t` object whose bytes, in increasing address order, are `b0 b1 b2 b3`. -/
def host_u32 (host : Endian) (b0 b1 b2 b3 : Nat) : Nat :=
  match host with
  | .little => b0 + b1 * 2 ^ 8 + b2 * 2 ^ 16 + b3 * 2 ^ 24
  | .big => b0 * 2 ^ 24 + b1 * 2 ^ 16 + b2 * 2 ^ 8 + b3

/-- The function `letoh(n)`: the union member `b` is filled with `b[k] = (n >> (k*8)) & 0xFF`
for `k = 0 .. 3` and the member `v`, the `uint32_t` made of those four bytes on this host, is
returned. -/
def letoh (host : Endian) (n : Nat) : Nat :=
  host_u32 host ((n >>> (0 * 8)) &&& 0xFF) ((n >>> (1 * 8)) &&& 0xFF)
    ((n >>> (2 * 8)) &&& 0xFF) ((n >>> (3 * 8)) &&& 0xFF)

/-- The struct `t_header`: two `uint32_t` fields, `size` first. -/
structure t_header where
  size : Nat
  magic : Nat
  deriving DecidableEq, Repr

/-- The object `header` after `fread(&header, sizeof(header), 1, f)` stored the given bytes:
bytes 0 to 3 are the field `size`, bytes 4 to 7 the field `magic`, each in host byte order. -/
def read_header (host : Endian) (bytes : List Nat) : t_header :=
  { size := host_u32 host (bytes.getD 0 0) (bytes.getD 1 0) (bytes.getD 2 0) (bytes.getD 3 0)
    magic := host_u32 host (bytes.getD 4 0) (bytes.getD 5 0) (bytes.getD 6 0) (bytes.getD 7 0) }

/-- The four bytes of a 32-bit value, least significant first (spec §6: "uint32,
little-endian"). -/
def le32 (v : Nat) : List Nat := [v % 256, v / 2 ^ 8 % 256, v / 2 ^ 16 % 256, v / 2 ^ 24 % 256]

/-- The 8-byte trailer of spec §6: `payload_size` then `magic`, each little-endian.  It is
written by the packaging step, which is outside `src/`. -/
def write_trailer (payload_size magic : Nat) : List Nat := le32 payload_size ++ le32 magic

/-! ## `traceback` (run.c:99-121) -/

deriving instance DecidableEq for Except

/-- The loop of `traceback` (run.c:105-116), entered at index `p` with `nb_nl` newlines counted:
`for (p = strlen(tb)-1; p > 0; p--) if (tb[p] == '\n') { nb_nl++; if (nb_nl == 2) { tb[p] = '\0';
break; } }`.  The text `tb` is the string before its terminating NUL, `'\n'` is 10; storing NUL
at `p` cuts the text down to its first `p` characters.  `.error p` reports a read of `tb[p]`
outside the text. -/
def trim_loop (tb : List Nat) : Nat → Nat → Except Nat (List Nat)
  | 0, _ => .ok tb
  | p + 1, nb_nl =>
    match tb[p + 1]? with
    | none => .error (p + 1)
    | some c =>
      if c = 10 then
        if nb_nl + 1 = 2 then .ok (tb.take (p + 1))
        else trim_loop tb p (nb_nl + 1)
      else trim_loop tb p nb_nl

/-- The trimming part of `traceback`: the loop started at `p = strlen(tb) - 1`, computed in
`size_t`, with `nb_nl = 0`. -/
def traceback_trim (tb : List Nat) : Except Nat (List Nat) :=
  trim_loop tb (size_pred tb.length) 0

/-- The text made of the given lines, separated by `'\n'` (reference notion of the spec's
"trace of `k` lines"). -/
def join_lines : List (List Nat) → List Nat
  | [] => []
  | [l] => l
  | l :: l2 :: ls => l ++ 10 :: join_lines (l2 :: ls)

/-! ## The bootstrap: `run_buffer` and `main` (run.c:162-226) -/

/-- The two places of the executable file that the bootstrap accesses. -/
inductive Region
  | trailer
  | payload
  deriving DecidableEq, Repr

/-- The observable steps of the bootstrap, in the order in which `main` performs them. -/
inductive Event
  /-- A call `decode(input, size, output)` -/
  | decode (input size output : Nat)
  /-- The call `luaL_loadbuffer(L, buffer, size, name)` inside `run_buffer`, with the bytes
  it is handed -/
  | run_buffer (name : String) (size : Nat) (bytes : List Nat)
  /-- The call of `lua_pcall` inside `run_buffer` and its status -/
  | pcall (name : String) (status : Nat)
  /-- The call `readlink("/proc/self/exe", ...)` inside `get_exe` -/
  | get_exe
  /-- The call `fopen(exe, "rb")` -/
  | fopen (exe : String)
  /-- The call `fseek(f, -back, SEEK_END)` and whether it succeeded -/
  | fseek (region : Region) (back : Nat) (ok : Bool)
  /-- The call `fread(buf, size, 1, f)` and whether it returned 1 -/
  | fread (region : Region) (size : Nat) (ok : Bool)
  | fclose
  /-- The call `perror(what)`: the OS error message is printed, the call returns -/
  | perror (what : String)
  /-- The call `error(what, message)` -/
  | error (what message : String)
  deriving DecidableEq, Repr

/-- How the process ends. -/
inductive Outcome
  /-- The function `main` returns this status -/
  | returned (status : Nat)
  /-- the process was terminated by `error` -/
  | aborted
  /-- undefined behaviour was reached (access through an invalid pointer or index) -/
  | undefined
  deriving DecidableEq, Repr

/-- Everything outside `run.c` that the bootstrap depends on. -/
structure World where
  /-- byte order of the host -/
  host : Endian
  /-- the constant `MAGIC` of `luax_config.h` -/
  MAGIC : Nat
  /-- the array `runtime_chunk` (contents of `lua_runtime_bundle.inc`) -/
  runtime_chunk : List Nat
  /-- keystream of `rc4_runtime` -/
  keystream : Nat → Nat
  /-- The program name `argv[0]` -/
  argv0 : String
  /-- path that the link `/proc/self/exe` points to, `none` when `readlink` fails -/
  proc_self_exe : Option String
  /-- contents of the files that can be opened for reading -/
  files : String → Option (List Nat)
  /-- indeterminate initial contents of memory returned by `safe_malloc`, by index -/
  heap : Nat → Nat
  /-- indeterminate initial contents of the local variable `header` -/
  stack : List Nat
  /-- Result of `luaL_loadbuffer` on a chunk name and bytes: `none` for `LUA_OK`, else the
  message left on the stack -/
  loadbuffer : String → List Nat → Option String
  /-- status of `lua_pcall` on the function compiled from a chunk -/
  pcall : String → List Nat → Nat

/-- The block of `size` bytes that `safe_malloc(size)` returns.  `safe_malloc` is declared in
`tools.h`, outside `src/`: the allocation is taken to succeed, also for `size = 0`, and its
initial contents are the indeterminate bytes `heap` of the world. -/
def safe_malloc (w : World) (size : Nat) : List Nat := (List.range size).map w.heap

/-- The call `fseek(f, -back, SEEK_END)` on a regular file of the given contents, the stream
being at `pos`: success and the new position.  A seek before the start of the file fails and leaves the
position where it was. -/
def fseek_end (file : List Nat) (pos back : Nat) : Bool × Nat :=
  if back ≤ file.length then (true, file.length - back) else (false, pos)

/-- The test `fread(buf, size, 1, f) == 1` on a regular file at position `pos`: whether one
whole item was read, the buffer afterwards, the new position.  With `size = 0` the call returns 0 and
changes nothing; on a short read the bytes that were available are stored. -/
def fread (file : List Nat) (pos : Nat) (buf : List Nat) (size : Nat) : Bool × List Nat × Nat :=
  let avail := (file.drop pos).take size
  (decide (size ≠ 0 ∧ avail.length = size), avail ++ buf.drop avail.length, pos + avail.length)

/-- Modelled from the spec: `error(what, message)` is declared in `tools.h`, whose source is not
part of `src/`.  Spec §6 and §7: "fatal conditions print a single diagnostic line
(program-name-prefixed) to the error stream" and "all fatal categories abort the whole process".
The call is the last step of the run and the process ends `aborted`. -/
def error (what message : String) : List Event × Outcome :=
  ([.error what message], .aborted)

/-- The function `run_buffer(L, buffer, size, name, argv0)` on block `buffer`: a compile failure
goes to `error`, otherwise the status of the protected call is returned.  Handing over more
bytes than the block holds is undefined.  (`memset(buffer, 0, size)` wipes a block that both
callers free right after the call; the wiped block is not returned.) -/
def run_buffer (w : World) (m : Mem) (buffer size : Nat) (name : String) :
    List Event × Except Outcome Nat :=
  if size ≤ (m buffer).length then
    let bytes := (m buffer).take size
    match w.loadbuffer name bytes with
    | some message =>
      (.run_buffer name size bytes :: (error w.argv0 message).1, .error (error w.argv0 message).2)
    | none =>
      ([.run_buffer name size bytes, .pcall name (w.pcall name bytes)], .ok (w.pcall name bytes))
  else ([.run_buffer name size (m buffer)], .error .undefined)

/-- Memory at the call `decode(runtime_chunk, sizeof(runtime_chunk), rt_chunk)`: block 0 is the
array `runtime_chunk`, block 1 is `rt_chunk = safe_malloc(sizeof(runtime_chunk))`. -/
def runtime_mem (w : World) : Mem := fun q =>
  if q = 0 then w.runtime_chunk
  else if q = 1 then safe_malloc w w.runtime_chunk.length
  else []

/-- The bytes that `main` hands to `run_buffer` for the runtime chunk: the first
`sizeof(runtime_chunk)-1` bytes of `rt_chunk` after `decode`; `none` when the call of `decode`
or that length is outside the allocations. -/
def runtime_bytes (w : World) : Option (List Nat) :=
  match decode w.keystream (runtime_mem w) 0 w.runtime_chunk.length 1 with
  | none => none
  | some m1 =>
    if size_pred w.runtime_chunk.length ≤ (m1 1).length then
      some ((m1 1).take (size_pred w.runtime_chunk.length))
    else none

/-- First part of `main` (run.c:190-193): decode the bundled runtime chunk into `rt_chunk` and
run it as `"=runtime"`.  The status that `run_buffer` returns is not looked at. -/
def runtime_phase (w : World) : List Event × Except Outcome Unit :=
  let size := w.runtime_chunk.length
  match decode w.keystream (runtime_mem w) 0 size 1 with
  | none => ([.decode 0 size 1], .error .undefined)
  | some m1 =>
    match run_buffer w m1 1 (size_pred size) "=runtime" with
    | (ev, .error o) => (.decode 0 size 1 :: ev, .error o)
    | (ev, .ok _) => (.decode 0 size 1 :: ev, .ok ())

/-- Memory at the call `decode(chunk, header.size, chunk)`: block 2 is `chunk`. -/
def payload_mem (chunk : List Nat) : Mem := fun q => if q = 2 then chunk else []

/-- End of `main` (run.c:219-225): `decode(chunk, header.size, chunk)` in place, then
`run_buffer(L, chunk, header.size-1, "=", argv[0])`, whose status `main` returns.  The
subtraction `header.size-1` is made in `uint32_t`. -/
def run_payload (w : World) (chunk : List Nat) (size : Nat) : List Event × Outcome :=
  match decode w.keystream (payload_mem chunk) 2 size 2 with
  | none => ([.decode 2 size 2], .undefined)
  | some m1 =>
    match run_buffer w m1 2 (u32_pred size) "=" with
    | (ev, .error o) => (.decode 2 size 2 :: ev, o)
    | (ev, .ok status) => (.decode 2 size 2 :: ev, .returned status)

/-- The function `get_exe(arg0, name, name_size)` as `main` calls it, with `name` the array
`exe` of 1024 bytes and `name_size = 1024` (run.c:87-97, the `readlink` branch): `readlink`
stores at most `name_size` bytes of the path, without a terminator, and returns their number
`n`; then `name[n] = 0` is stored.  The result is the name left in `exe`, or `none` when that
store is outside the array: after a failed `readlink`, which `perror` reports before returning,
`n` is `-1`, and for a path of 1024 bytes or more `n` is 1024. -/
def get_exe (w : World) : List Event × Option String :=
  match w.proc_self_exe with
  | none => ([.get_exe, .perror w.argv0], none)
  | some path =>
    if path.utf8ByteSize < 1024 then ([.get_exe], some path) else ([.get_exe], none)

/-- Second part of `main` (run.c:199-225): locate the executable with `get_exe` and open it,
read and normalise the trailer, check the magic, read the payload, decode it in place and run it
as `"="`.  `perror` is the C library function: it prints and returns, so the run goes on after
it; the results of both `fseek` calls are not looked at.  A store of `get_exe` outside `exe` is
undefined, and so is the `fseek` on the `NULL` stream that a failed `fopen` leaves.
`header.size + sizeof(header)` is computed in `size_t` and does not wrap. -/
def payload_phase (w : World) : List Event × Outcome :=
  match (get_exe w).2 with
  | none => ((get_exe w).1, .undefined)
  | some exe =>
    match w.files exe with
    | none => ((get_exe w).1 ++ [.fopen exe, .perror exe], .undefined)
    | some file =>
      let seek1 := fseek_end file 0 8
      let read1 := fread file seek1.2 w.stack 8
      let ev1 := (get_exe w).1
        ++ [.fopen exe, .fseek .trailer 8 seek1.1, .fread .trailer 8 read1.1]
        ++ (if read1.1 then [] else [.perror w.argv0])
      let raw := read_header w.host read1.2.1
      let header : t_header :=
        { magic := letoh w.host raw.magic, size := letoh w.host raw.size }
      if header.magic ≠ w.MAGIC then
        (ev1 ++ (error w.argv0 "Lua application not found").1,
          (error w.argv0 "Lua application not found").2)
      else
        let seek2 := fseek_end file read1.2.2 (header.size + 8)
        let read2 := fread file seek2.2 (safe_malloc w header.size) header.size
        let ev2 := ev1
          ++ [.fseek .payload (header.size + 8) seek2.1, .fread .payload header.size read2.1]
          ++ (if read2.1 then [] else [.perror w.argv0])
          ++ [.fclose]
        (ev2 ++ (run_payload w read2.2.1 header.size).1, (run_payload w read2.2.1 header.size).2)

/-- The function `main`: the runtime part, then the payload part unless the process has ended. -/
def main (w : World) : List Event × Outcome :=
  match runtime_phase w with
  | (ev, .error o) => (ev, o)
  | (ev, .ok _) => (ev ++ (payload_phase w).1, (payload_phase w).2)

/-- Steps that seek to, read, decode or execute the payload region. -/
def Event.on_payload : Event → Bool
  | .fseek .payload _ _ => true
  | .fread .payload _ _ => true
  | .decode input _ _ => input == 2
  | .run_buffer name _ _ => name == "="
  | .pcall name _ => name == "="
  | _ => false

/-- Steps that are an I/O error: a failed seek, a failed read, a report by `perror`. -/
def Event.io_error : Event → Bool
  | .perror _ => true
  | .fseek _ _ ok => !ok
  | .fread _ _ ok => !ok
  | _ => false

/-- A world to run examples in: little-endian host, the runtime chunk is the running-sum
encoding of `"a=1"`, every chunk compiles and runs with status 0. -/
def sample_world (file : List Nat) : World :=
  { host := .little
    MAGIC := 0x5861754C
    runtime_chunk := forward_diff [97, 61, 49] ++ [45]
    keystream := fun _ => 0
    argv0 := "app"
    proc_self_exe := some "/bin/app"
    files := fun _ => some file
    heap := fun _ => 0
    stack := [0, 0, 0, 0, 0, 0, 0, 0]
    loadbuffer := fun _ _ => none
    pcall := fun _ _ => 0 }

/-- The sample world with a runtime chunk whose protected call fails: `lua_pcall` returns
`LUA_ERRRUN` (2) for the chunk `"=runtime"`, and 0 for the application. -/
def failing_runtime_world (file : List Nat) : World :=
  { sample_world file with pcall := fun name _ => if name = "=runtime" then 2 else 0 }

/-- An executable image followed by the payload `"x=1X"`, whose final byte `'X'` is no selector,
and a matching trailer. -/
def bundle_unknown_selector : List Nat :=
  [127, 69, 76, 70] ++ [120, 61, 49, 88] ++ write_trailer 4 0x5861754C

/-- An executable image followed by the running-sum encoding of `"x=1"` and a matching
trailer. -/
def bundle_running_sum : List Nat :=
  [127, 69, 76, 70] ++ (forward_diff [120, 61, 49] ++ [45]) ++ write_trailer 4 0x5861754C

/-- A path of 1024 bytes, the size of the array `exe` in `main`. -/
def long_path : String := String.mk (List.replicate 1024 'a')

/-- A truncated bundle: the trailer announces a payload of 16 bytes, the file holds 4 bytes
before the trailer. -/
def bundle_truncated : List Nat :=
  [127, 69, 76, 70] ++ write_trailer 16 0x5861754C

/-- An executable image followed by a trailer with the right magic and `payload_size = 0`. -/
def bundle_empty_payload : List Nat :=
  [127, 69, 76, 70] ++ write_trailer 0 0x5861754C

/-! ## Lemmas on `decode` -/

theorem size_pred_succ (n : Nat) (h : n + 1 < 2 ^ 64) : size_pred (n + 1) = n := by
  unfold size_pred
  rw [Nat.mod_eq_of_lt h]
  simp

theorem u32_pred_succ (n : Nat) (h : n + 1 < 2 ^ 32) : u32_pred (n + 1) = n := by
  unfold u32_pred
  rw [Nat.mod_eq_of_lt h]
  simp

theorem length_sum_from (prev : Nat) (l : List Nat) : (sum_from prev l).length = l.length := by
  induction l generalizing prev with
  | nil => rfl
  | cons b rest ih => simp [sum_from, ih]

theorem length_xor_from (ks : Nat → Nat) (i : Nat) (l : List Nat) :
    (xor_from ks i l).length = l.length := by
  induction l generalizing i with
  | nil => rfl
  | cons b rest ih => simp [xor_from, ih]

/-- The running-sum loop: with `prev` at `output[i-1]` and `rest` at `input[i ..]`, the loop ends
and leaves `sum_from prev rest` at `output[i ..]`, everything below `i` untouched. -/
theorem decode_loop_spec (input output : Nat) :
    ∀ (rest : List Nat) (i : Nat) (m : Mem) (prev : Nat),
      1 ≤ i →
      (m output)[i - 1]? = some prev →
      (∀ k, k < rest.length → (m input)[i + k]? = rest[k]?) →
      i + rest.length ≤ (m output).length →
      ∃ r, decode_loop input output rest.length i m = some r ∧
        (∀ k, k < rest.length → (r output)[i + k]? = (sum_from prev rest)[k]?) ∧
        (∀ k, k < i → (r output)[k]? = (m output)[k]?) ∧
        (r output).length = (m output).length := by
  intro rest
  induction rest with
  | nil =>
    intro i m prev _ _ _ _
    exact ⟨m, rfl, by simp, by simp, rfl⟩
  | cons b rest ih =>
    intro i m prev hi hprev hin hlen
    simp only [List.length_cons] at hlen hin ⊢
    have hb : (m input)[i]? = some b := by simpa using hin 0 (by omega)
    have hilt : i < (m output).length := by omega
    simp only [decode_loop, Mem.load, Mem.store, hprev, hb, hilt, if_true]
    obtain ⟨r, hr, hout, hframe, hl⟩ := ih (i + 1)
      (fun q => if q = output then (m output).set i ((prev + b) % 256) else m q)
      ((prev + b) % 256) (by omega)
      (by simp [List.getElem?_set, hilt])
      (by
        intro k hk
        have h1 := hin (k + 1) (by omega)
        simp only [List.getElem?_cons_succ] at h1
        by_cases hio : input = output
        · subst hio
          simp only [if_true]
          rw [List.getElem?_set_ne (by omega)]
          rw [← h1]; congr 1; omega
        · simp only [hio, if_false]
          rw [← h1]; congr 1; omega)
      (by simp; omega)
    refine ⟨r, hr, ?_, ?_, ?_⟩
    · intro k hk
      cases k with
      | zero =>
        have := hframe i (by omega)
        simp only [if_true, List.getElem?_set, hilt] at this
        simpa [sum_from] using this
      | succ k =>
        have := hout k (by omega)
        simp only [sum_from, List.getElem?_cons_succ]
        rw [← this]; congr 1; omega
    · intro k hk
      have := hframe k (by omega)
      rw [this]
      simp only [if_true]
      rw [List.getElem?_set_ne (by omega)]
    · simpa using hl

theorem rc4_loop_spec (ks : Nat → Nat) (input output : Nat) :
    ∀ (rest : List Nat) (i : Nat) (m : Mem),
      (∀ k, k < rest.length → (m input)[i + k]? = rest[k]?) →
      i + rest.length ≤ (m output).length →
      ∃ r, rc4_loop ks input output rest.length i m = some r ∧
        (∀ k, k < rest.length → (r output)[i + k]? = (xor_from ks i rest)[k]?) ∧
        (∀ k, k < i → (r output)[k]? = (m output)[k]?) ∧
        (r output).length = (m output).length := by
  intro rest
  induction rest with
  | nil =>
    intro i m _ _
    exact ⟨m, rfl, by simp, by simp, rfl⟩
  | cons b rest ih =>
    intro i m hin hlen
    simp only [List.length_cons] at hlen hin ⊢
    have hb : (m input)[i]? = some b := by simpa using hin 0 (by omega)
    have hilt : i < (m output).length := by omega
    simp only [rc4_loop, Mem.load, Mem.store, hb, hilt, if_true]
    obtain ⟨r, hr, hout, hframe, hl⟩ := ih (i + 1)
      (fun q => if q = output then (m output).set i (b ^^^ (ks i % 256)) else m q)
      (by
        intro k hk
        have h1 := hin (k + 1) (by omega)
        simp only [List.getElem?_cons_succ] at h1
        by_cases hio : input = output
        · subst hio
          simp only [if_true]
          rw [List.getElem?_set_ne (by omega)]
          rw [← h1]; congr 1; omega
        · simp only [hio, if_false]
          rw [← h1]; congr 1; omega)
      (by simp; omega)
    refine ⟨r, hr, ?_, ?_, ?_⟩
    · intro k hk
      cases k with
      | zero =>
        have := hframe i (by omega)
        simp only [if_true, List.getElem?_set, hilt] at this
        simpa [xor_from] using this
      | succ k =>
        have := hout k (by omega)
        simp only [xor_from, List.getElem?_cons_succ]
        rw [← this]; congr 1; omega
    · intro k hk
      have := hframe k (by omega)
      rw [this]
      simp only [if_true]
      rw [List.getElem?_set_ne (by omega)]
    · simpa using hl

/-- The `'-'` arm of `decode`: the first `size-1` output bytes are the running sum of the input. -/
theorem decode_dash (ks : Nat → Nat) (m : Mem) (input output : Nat) (e : List Nat)
    (hin : m input = e ++ [45]) (hsz : e.length + 1 < 2 ^ 64)
    (hout : e.length ≤ (m output).length) (hout1 : 1 ≤ (m output).length) :
    ∃ r, decode ks m input (e.length + 1) output = some r ∧
      (r output).take e.length = running_sum e := by
  cases e with
  | nil =>
    have h0 : 0 < (m output).length := hout1
    simp [decode, size_pred, Mem.load, Mem.store, hin, h0, decode_loop, running_sum]
  | cons a rest =>
    have hsel : (m input)[rest.length + 1]? = some 45 := by
      rw [hin]; simp [List.getElem?_append_right]
    have h0 : (m input)[0]? = some a := by rw [hin]; simp
    have hlt : 0 < (m output).length := hout1
    simp only [List.length_cons] at hsz hout ⊢
    simp only [decode, size_pred_succ _ hsz, Mem.load, Mem.store, hsel, h0, hlt, if_true,
      Nat.add_sub_cancel]
    obtain ⟨r, hr, hres, hframe, hl⟩ := decode_loop_spec input output rest 1
      (fun q => if q = output then (m output).set 0 a else m q) a (le_refl 1)
      (by simp [List.getElem?_set, hlt])
      (by
        intro k hk
        by_cases hio : input = output
        · subst hio
          simp only [if_true]
          rw [List.getElem?_set_ne (by omega), hin, Nat.add_comm 1 k]
          simp [List.getElem?_append_left, hk]
        · simp only [hio, if_false]
          rw [hin, Nat.add_comm 1 k]
          simp [List.getElem?_append_left, hk])
      (by simp; omega)
    refine ⟨r, hr, ?_⟩
    apply List.ext_getElem?
    intro k
    by_cases hk : k < rest.length + 1
    · rw [List.getElem?_take_of_lt hk]
      cases k with
      | zero =>
        rw [hframe 0 (by omega)]
        simp [running_sum, List.getElem?_set, hlt]
      | succ k =>
        have := hres k (by omega)
        rw [Nat.add_comm 1 k] at this
        simpa [running_sum] using this
    · have h1 : (running_sum (a :: rest)).length ≤ k := by
        simp [running_sum, length_sum_from]; omega
      rw [List.getElem?_eq_none h1, List.getElem?_eq_none]
      simp; omega

/-- The `'#'` arm of `decode`: the first `size-1` output bytes are the input XOR the keystream. -/
theorem decode_hash (ks : Nat → Nat) (m : Mem) (input output : Nat) (e : List Nat)
    (hin : m input = e ++ [35]) (hsz : e.length + 1 < 2 ^ 64)
    (hout : e.length ≤ (m output).length) :
    ∃ r, decode ks m input (e.length + 1) output = some r ∧
      (r output).take e.length = xor_from ks 0 e := by
  have hsel : (m input)[e.length]? = some 35 := by
    rw [hin]; simp [List.getElem?_append_right]
  simp only [decode, size_pred_succ _ hsz, Mem.load, hsel, rc4_runtime]
  obtain ⟨r, hr, hres, _, hl⟩ := rc4_loop_spec ks input output e 0 m
    (by
      intro k hk
      rw [hin, Nat.zero_add]
      simp [List.getElem?_append_left, hk])
    (by omega)
  refine ⟨r, by simpa using hr, ?_⟩
  apply List.ext_getElem?
  intro k
  by_cases hk : k < e.length
  · rw [List.getElem?_take_of_lt hk]
    simpa using hres k hk
  · have h1 : (xor_from ks 0 e).length ≤ k := by
      rw [length_xor_from]; omega
    rw [List.getElem?_eq_none h1, List.getElem?_eq_none]
    simp; omega

theorem sum_from_diff_from (prev : Nat) (s : List Nat) (hp : prev < 256)
    (hs : ∀ b ∈ s, b < 256) : sum_from prev (diff_from prev s) = s := by
  induction s generalizing prev with
  | nil => rfl
  | cons b rest ih =>
    have hb : b < 256 := hs b (by simp)
    have hval : (prev + (b + 256 - prev) % 256) % 256 = b := by omega
    simp only [diff_from, sum_from, hval]
    rw [ih b hb (fun c hc => hs c (by simp [hc]))]

theorem running_sum_forward_diff (s : List Nat) (hs : ∀ b ∈ s, b < 256) :
    running_sum (forward_diff s) = s := by
  cases s with
  | nil => rfl
  | cons a rest =>
    simp only [forward_diff, running_sum]
    rw [sum_from_diff_from a rest (hs a (by simp)) (fun c hc => hs c (by simp [hc]))]

theorem length_diff_from (prev : Nat) (l : List Nat) : (diff_from prev l).length = l.length := by
  induction l generalizing prev with
  | nil => rfl
  | cons b rest ih => simp [diff_from, ih]

theorem length_forward_diff (l : List Nat) : (forward_diff l).length = l.length := by
  cases l with
  | nil => rfl
  | cons a rest => simp [forward_diff, length_diff_from]

/-- C1. Running-sum decode inverts the forward-difference encoding: for every byte sequence `s`
of length at least 2, `decode` called on `forward_diff s` followed by the selector `'-'`, with
`size = len(s) + 1`, returns and leaves exactly `s` in the first `len(s)` bytes of the output
(the output being the input buffer itself or any other buffer of at least `len(s)` bytes). -/
theorem decode_forward_diff_roundtrip (ks : Nat → Nat) (m : Mem) (input output : Nat)
    (s : List Nat) (hlen : 2 ≤ s.length) (hsz : s.length + 1 < 2 ^ 64)
    (hbytes : ∀ b ∈ s, b < 256)
    (hin : m input = forward_diff s ++ [45])
    (hout : s.length ≤ (m output).length) :
    ∃ r, decode ks m input (s.length + 1) output = some r ∧
      (r output).take s.length = s := by
  have h := decode_dash ks m input output (forward_diff s) hin
    (by rw [length_forward_diff]; exact hsz)
    (by rw [length_forward_diff]; exact hout) (by omega)
  rw [length_forward_diff, running_sum_forward_diff s hbytes] at h
  exact h

/-- Witness for C1: the text `"lua"`, decoded in place. -/
theorem decode_forward_diff_roundtrip_witness :
    ∃ r, decode (fun _ => 0) (fun _ => forward_diff [108, 117, 97] ++ [45]) 0 (3 + 1) 0 = some r ∧
      (r 0).take 3 = [108, 117, 97] :=
  decode_forward_diff_roundtrip (fun _ => 0) (fun _ => forward_diff [108, 117, 97] ++ [45]) 0 0
    [108, 117, 97] (by decide) (by norm_num) (by decide) rfl (by decide)

/-- C5. For every buffer of length at least 1 ending in `'-'` or `'#'`, `decode` run in place
(output the same buffer as the input, as `main` does for the payload) returns and leaves in the
first `size-1` bytes the same bytes as `decode` run into a separate output buffer of at least
`size` bytes (as `main` does for the runtime chunk); the `'#'` arm is `rc4_runtime`. -/
theorem decode_in_place_eq_separate (ks : Nat → Nat) (m1 m2 : Mem) (buf : List Nat)
    (p input output : Nat)
    (hlen : 1 ≤ buf.length) (hsz : buf.length < 2 ^ 64)
    (hsel : buf[buf.length - 1]? = some 45 ∨ buf[buf.length - 1]? = some 35)
    (h1 : m1 p = buf) (h2 : m2 input = buf)
    (_hsep : input ≠ output) (hout : buf.length ≤ (m2 output).length) :
    ∃ r1 r2, decode ks m1 p buf.length p = some r1 ∧
      decode ks m2 input buf.length output = some r2 ∧
      (r1 p).take (buf.length - 1) = (r2 output).take (buf.length - 1) := by
  obtain ⟨e, c, rfl⟩ : ∃ e c, buf = e ++ [c] := by
    rcases List.eq_nil_or_concat buf with h | ⟨e, c, h⟩
    · subst h; simp at hlen
    · exact ⟨e, c, by simpa using h⟩
  have hc : c = 45 ∨ c = 35 := by
    simpa [List.getElem?_append_right] using hsel
  simp only [List.length_append, List.length_singleton, Nat.add_sub_cancel] at hsz hout ⊢
  rcases hc with rfl | rfl
  · obtain ⟨r1, hr1, e1⟩ := decode_dash ks m1 p p e h1 hsz (by rw [h1]; simp) (by rw [h1]; simp)
    obtain ⟨r2, hr2, e2⟩ := decode_dash ks m2 input output e h2 hsz (by omega) (by omega)
    exact ⟨r1, r2, hr1, hr2, by rw [e1, e2]⟩
  · obtain ⟨r1, hr1, e1⟩ := decode_hash ks m1 p p e h1 hsz (by rw [h1]; simp)
    obtain ⟨r2, hr2, e2⟩ := decode_hash ks m2 input output e h2 hsz (by omega)
    exact ⟨r1, r2, hr1, hr2, by rw [e1, e2]⟩

/-- Witness for C5: the running-sum encoding of `"lua"`, in place and into a zeroed buffer. -/
theorem decode_in_place_eq_separate_witness :
    ∃ r1 r2, decode (fun _ => 0) (fun _ => [108, 9, 236, 45]) 0 [108, 9, 236, 45].length 0
        = some r1 ∧
      decode (fun _ => 0) (fun q => if q = 0 then [108, 9, 236, 45] else [0, 0, 0, 0]) 0
        [108, 9, 236, 45].length 1 = some r2 ∧
      (r1 0).take ([108, 9, 236, 45].length - 1) = (r2 1).take ([108, 9, 236, 45].length - 1) :=
  decode_in_place_eq_separate (fun _ => 0) (fun _ => [108, 9, 236, 45])
    (fun q => if q = 0 then [108, 9, 236, 45] else [0, 0, 0, 0]) [108, 9, 236, 45] 0 0 1
    (by decide) (by norm_num) (by decide) rfl rfl (by decide) (by decide)

/-! ## Trailer round trip -/

theorem byte_at (n k : Nat) : (n >>> k) &&& 0xFF = n / 2 ^ k % 256 := by
  rw [Nat.shiftRight_eq_div_pow]
  exact Nat.and_pow_two_sub_one_eq_mod _ 8

theorem letoh_host_u32 (host : Endian) (b0 b1 b2 b3 : Nat)
    (h0 : b0 < 256) (h1 : b1 < 256) (h2 : b2 < 256) (h3 : b3 < 256) :
    letoh host (host_u32 host b0 b1 b2 b3) = b0 + b1 * 256 + b2 * 65536 + b3 * 16777216 := by
  cases host
  · have e0 : (b0 + b1 * 256 + b2 * 65536 + b3 * 16777216) % 256 = b0 := by omega
    have e1 : (b0 + b1 * 256 + b2 * 65536 + b3 * 16777216) / 256 % 256 = b1 := by omega
    have e2 : (b0 + b1 * 256 + b2 * 65536 + b3 * 16777216) / 65536 % 256 = b2 := by omega
    have e3 : (b0 + b1 * 256 + b2 * 65536 + b3 * 16777216) / 16777216 % 256 = b3 := by omega
    simp only [letoh, byte_at, host_u32]
    norm_num
    rw [e0, e1, e2, e3]
  · have e0 : (b0 * 16777216 + b1 * 65536 + b2 * 256 + b3) % 256 = b3 := by omega
    have e1 : (b0 * 16777216 + b1 * 65536 + b2 * 256 + b3) / 256 % 256 = b2 := by omega
    have e2 : (b0 * 16777216 + b1 * 65536 + b2 * 256 + b3) / 65536 % 256 = b1 := by omega
    have e3 : (b0 * 16777216 + b1 * 65536 + b2 * 256 + b3) / 16777216 % 256 = b0 := by omega
    simp only [letoh, byte_at, host_u32]
    norm_num
    rw [e0, e1, e2, e3]
    omega

theorem letoh_host_u32_le32 (host : Endian) (v : Nat) (hv : v < 2 ^ 32) :
    letoh host (host_u32 host (v % 256) (v / 2 ^ 8 % 256) (v / 2 ^ 16 % 256) (v / 2 ^ 24 % 256))
      = v := by
  rw [letoh_host_u32 host _ _ _ _ (Nat.mod_lt _ (by norm_num)) (Nat.mod_lt _ (by norm_num))
    (Nat.mod_lt _ (by norm_num)) (Nat.mod_lt _ (by norm_num))]
  omega

/-- Reading back a written trailer: both fields come out of `letoh` as they were written. -/
theorem letoh_read_header_write_trailer (host : Endian) (payload_size magic : Nat)
    (hs : payload_size < 2 ^ 32) (hm : magic < 2 ^ 32) :
    letoh host (read_header host (write_trailer payload_size magic)).size = payload_size ∧
    letoh host (read_header host (write_trailer payload_size magic)).magic = magic := by
  simp only [read_header, write_trailer, le32, List.cons_append, List.nil_append,
    List.getD_cons_zero, List.getD_cons_succ]
  exact ⟨letoh_host_u32_le32 host _ hs, letoh_host_u32_le32 host _ hm⟩

/-- C3. For every pair `(payload_size, magic)` of 32-bit values: the 8-byte trailer written as
`payload_size` then `magic`, each little-endian, loaded into `t_header` in host byte order and
passed field by field through `letoh`, gives back `payload_size` and `magic`, on a little-endian
host and on a big-endian host alike. -/
theorem trailer_roundtrip (payload_size magic : Nat)
    (hs : payload_size < 2 ^ 32) (hm : magic < 2 ^ 32) :
    ∀ host : Endian,
      letoh host (read_header host (write_trailer payload_size magic)).size = payload_size ∧
      letoh host (read_header host (write_trailer payload_size magic)).magic = magic :=
  fun host => letoh_read_header_write_trailer host payload_size magic hs hm

/-- Witness for C3: payload size 4 and the magic of the sample world, on both hosts. -/
theorem trailer_roundtrip_witness :
    (letoh .little (read_header .little (write_trailer 4 0x5861754C)).size = 4 ∧
      letoh .little (read_header .little (write_trailer 4 0x5861754C)).magic = 0x5861754C) ∧
    (letoh .big (read_header .big (write_trailer 4 0x5861754C)).size = 4 ∧
      letoh .big (read_header .big (write_trailer 4 0x5861754C)).magic = 0x5861754C) :=
  ⟨trailer_roundtrip 4 0x5861754C (by norm_num) (by norm_num) .little,
    trailer_roundtrip 4 0x5861754C (by norm_num) (by norm_num) .big⟩

/-! ## Traceback trimming -/

theorem trim_loop_scan (tb : List Nat) (nb : Nat) :
    ∀ (n p : Nat), (∀ i, p < i → i ≤ p + n → ∃ c, tb[i]? = some c ∧ c ≠ 10) →
      trim_loop tb (p + n) nb = trim_loop tb p nb := by
  intro n
  induction n with
  | zero => intro p _; rfl
  | succ n ih =>
    intro p h
    obtain ⟨c, hc, hne⟩ := h (p + n + 1) (by omega) (by omega)
    rw [← Nat.add_assoc, trim_loop, hc]
    simp only [hne, if_false]
    exact ih p (fun i h1 h2 => h i h1 (by omega))

theorem join_lines_append_two (front : List (List Nat)) (l1 l2 : List Nat) (hf : front ≠ []) :
    join_lines (front ++ [l1, l2]) = join_lines front ++ 10 :: (l1 ++ 10 :: l2) := by
  induction front with
  | nil => exact absurd rfl hf
  | cons a rest ih =>
    cases rest with
    | nil => simp [join_lines]
    | cons b rest =>
      have := ih (by simp)
      simp only [List.cons_append] at this ⊢
      simp only [join_lines, this, List.append_assoc, List.cons_append]

/-- The loop on a text `pre ++ "\n" ++ l1 ++ "\n" ++ l2` with `pre` non-empty and no newline in
`l1`, `l2` cuts the text down to `pre`. -/
theorem traceback_trim_two_lines (pre l1 l2 : List Nat) (hpre : pre ≠ [])
    (h1 : 10 ∉ l1) (h2 : 10 ∉ l2)
    (hlen : (pre ++ 10 :: (l1 ++ 10 :: l2)).length < 2 ^ 64) :
    traceback_trim (pre ++ 10 :: (l1 ++ 10 :: l2)) = .ok pre := by
  have hp : 0 < pre.length := List.length_pos.mpr hpre
  simp only [List.length_append, List.length_cons] at hlen
  have hsz : size_pred (pre ++ 10 :: (l1 ++ 10 :: l2)).length
      = (pre.length + l1.length + 1) + l2.length := by
    simp only [List.length_append, List.length_cons]
    rw [show pre.length + (l1.length + (l2.length + 1) + 1)
      = (pre.length + l1.length + 1 + l2.length) + 1 by omega]
    exact size_pred_succ _ (by omega)
  rw [traceback_trim, hsz]
  rw [trim_loop_scan _ _ l2.length (pre.length + l1.length + 1)]
  · have hnl : (pre ++ 10 :: (l1 ++ 10 :: l2))[pre.length + l1.length + 1]? = some 10 := by
      rw [List.getElem?_append_right (by omega)]
      have : pre.length + l1.length + 1 - pre.length = l1.length + 1 := by omega
      rw [this, List.getElem?_cons_succ, List.getElem?_append_right (by omega)]
      simp
    rw [trim_loop, hnl]
    simp only [if_true]
    have : (0 + 1 = 2) = False := by simp
    simp only [this, if_false]
    rw [trim_loop_scan _ _ l1.length pre.length]
    · obtain ⟨q, hq⟩ : ∃ q, pre.length = q + 1 := ⟨pre.length - 1, by omega⟩
      have hnl2 : (pre ++ 10 :: (l1 ++ 10 :: l2))[q + 1]? = some 10 := by
        rw [← hq, List.getElem?_append_right (by omega)]
        simp
      rw [hq, trim_loop, hnl2]
      simp only [if_true]
      rw [← hq]
      simp
    · intro i hi1 hi2
      obtain ⟨j, rfl⟩ : ∃ j, i = pre.length + (j + 1) := ⟨i - pre.length - 1, by omega⟩
      have hj : j < l1.length := by omega
      refine ⟨l1[j], ?_, fun h => h1 (h ▸ List.getElem_mem hj)⟩
      rw [List.getElem?_append_right (by omega), Nat.add_sub_cancel_left,
        List.getElem?_cons_succ, List.getElem?_append_left hj]
      exact List.getElem?_eq_getElem hj
  · intro i hi1 hi2
    obtain ⟨j, rfl⟩ : ∃ j, i = pre.length + (l1.length + (j + 1) + 1) :=
      ⟨i - (pre.length + l1.length + 2), by omega⟩
    have hj : j < l2.length := by omega
    refine ⟨l2[j], ?_, fun h => h2 (h ▸ List.getElem_mem hj)⟩
    rw [List.getElem?_append_right (by omega), Nat.add_sub_cancel_left,
      List.getElem?_cons_succ, List.getElem?_append_right (by omega), Nat.add_sub_cancel_left,
      List.getElem?_cons_succ]
    exact List.getElem?_eq_getElem hj

/-- A text without newline that is not empty is scanned inside its bounds and left as it is. -/
theorem traceback_trim_no_newline (tb : List Nat) (hne : tb ≠ []) (hnl : 10 ∉ tb)
    (hlen : tb.length < 2 ^ 64) : traceback_trim tb = .ok tb := by
  have hp : 0 < tb.length := List.length_pos.mpr hne
  have hsz : size_pred tb.length = 0 + (tb.length - 1) := by
    obtain ⟨n, hn⟩ : ∃ n, tb.length = n + 1 := ⟨tb.length - 1, by omega⟩
    rw [hn, size_pred_succ n (by omega)]
    omega
  rw [traceback_trim, hsz, trim_loop_scan _ _ (tb.length - 1) 0]
  · rfl
  · intro i hi1 hi2
    have hi : i < tb.length := by omega
    exact ⟨tb[i], List.getElem?_eq_getElem hi, fun h => hnl (h ▸ List.getElem_mem hi)⟩

theorem join_lines_ne_nil (front : List (List Nat)) (hf : front ≠ [])
    (h : front.length = 1 → front.head? ≠ some []) : join_lines front ≠ [] := by
  cases front with
  | nil => exact absurd rfl hf
  | cons a rest =>
    cases rest with
    | nil =>
      have := h rfl
      simpa [join_lines] using this
    | cons b rest => simp [join_lines]

theorem split_last_two (ls : List (List Nat)) (hk : 3 ≤ ls.length) :
    ∃ front l1 l2, ls = front ++ [l1, l2] ∧ ls.take (ls.length - 2) = front ∧ front ≠ [] ∧
      front.head? = ls.head? := by
  obtain ⟨l1, l2, hd⟩ : ∃ l1 l2, ls.drop (ls.length - 2) = [l1, l2] :=
    List.length_eq_two.mp (by simp; omega)
  refine ⟨ls.take (ls.length - 2), l1, l2, ?_, rfl, ?_, ?_⟩
  · rw [← hd, List.take_append_drop]
  · intro h
    have := congrArg List.length h
    simp at this
    omega
  · cases ls with
    | nil => simp at hk
    | cons a rest =>
      obtain ⟨n, hn⟩ : ∃ n, (a :: rest).length - 2 = n + 1 :=
        ⟨(a :: rest).length - 3, by simp at hk ⊢; omega⟩
      rw [hn]; simp

/-- Apart from a three-line text whose first line is empty, the loop does what its comment
says: for every trace text made of `k ≥ 3` lines (lines separated by `'\n'`, any line possibly
empty) it yields exactly the first `k-2` lines. -/
theorem traceback_trim_drops_last_two_lines (ls : List (List Nat)) (hk : 3 ≤ ls.length)
    (hnl : ∀ l ∈ ls, 10 ∉ l) (hfirst : ls.length = 3 → ls.head? ≠ some [])
    (hlen : (join_lines ls).length < 2 ^ 64) :
    traceback_trim (join_lines ls) = .ok (join_lines (ls.take (ls.length - 2))) := by
  obtain ⟨front, l1, l2, hls, htake, hfront, hhead⟩ := split_last_two ls hk
  rw [htake]
  have hpre : join_lines front ≠ [] := by
    apply join_lines_ne_nil front hfront
    intro h1
    rw [hhead]
    apply hfirst
    rw [hls]; simp [h1]
  subst hls
  rw [join_lines_append_two front l1 l2 hfront] at hlen ⊢
  exact traceback_trim_two_lines _ l1 l2 hpre (hnl l1 (by simp)) (hnl l2 (by simp)) hlen

/-- An instance: a message line, a header line and two frames. -/
theorem traceback_trim_drops_last_two_lines_witness :
    traceback_trim (join_lines [[101], [115, 116], [9, 97], [9, 98]])
      = .ok (join_lines (List.take ([[101], [115, 116], [9, 97], [9, 98]].length - 2)
          [[101], [115, 116], [9, 97], [9, 98]])) :=
  traceback_trim_drops_last_two_lines [[101], [115, 116], [9, 97], [9, 98]] (by decide)
    (by decide) (by decide) (by decide)

/-- On every non-empty trace text of fewer than 2 lines, every index the trimming loop reads
lies inside the text (no out-of-bounds read is reported) and the text is left unmodified. -/
theorem traceback_trim_short_text_unmodified (ls : List (List Nat)) (hk : ls.length < 2)
    (hnl : ∀ l ∈ ls, 10 ∉ l) (hne : join_lines ls ≠ [])
    (hlen : (join_lines ls).length < 2 ^ 64) :
    traceback_trim (join_lines ls) = .ok (join_lines ls) := by
  cases ls with
  | nil => exact absurd rfl hne
  | cons l rest =>
    cases rest with
    | nil =>
      simp only [join_lines] at hne hlen ⊢
      exact traceback_trim_no_newline l hne (hnl l (by simp)) hlen
    | cons b rest => simp only [List.length_cons] at hk; omega

/-- An instance: the one-line text `"error"`. -/
theorem traceback_trim_short_text_unmodified_witness :
    traceback_trim (join_lines [[101, 114, 114, 111, 114]])
      = .ok (join_lines [[101, 114, 114, 111, 114]]) :=
  traceback_trim_short_text_unmodified [[101, 114, 114, 111, 114]] (by decide) (by decide)
    (by decide) (by decide)

/-! ## The bootstrap sequence -/

theorem main_of_runtime_ok (w : World) (h : (runtime_phase w).2 = .ok ()) :
    main w = ((runtime_phase w).1 ++ (payload_phase w).1, (payload_phase w).2) := by
  unfold main
  rcases hr : runtime_phase w with ⟨ev, r⟩
  rw [hr] at h
  cases r with
  | error o => simp at h
  | ok u => rfl

theorem runtime_name_ne : ("=runtime" == "=") = false := by decide

theorem runtime_phase_cases (w : World) :
    runtime_phase w = ([.decode 0 w.runtime_chunk.length 1], .error .undefined) ∨
    (∃ bytes, runtime_phase w = ([.decode 0 w.runtime_chunk.length 1,
        .run_buffer "=runtime" (size_pred w.runtime_chunk.length) bytes], .error .undefined)) ∨
    (∃ bytes message, runtime_bytes w = some bytes ∧
      w.loadbuffer "=runtime" bytes = some message ∧
      runtime_phase w = ([.decode 0 w.runtime_chunk.length 1,
        .run_buffer "=runtime" (size_pred w.runtime_chunk.length) bytes,
        .error w.argv0 message], .error .aborted)) ∨
    (∃ bytes, runtime_bytes w = some bytes ∧ w.loadbuffer "=runtime" bytes = none ∧
      runtime_phase w = ([.decode 0 w.runtime_chunk.length 1,
        .run_buffer "=runtime" (size_pred w.runtime_chunk.length) bytes,
        .pcall "=runtime" (w.pcall "=runtime" bytes)], .ok ())) := by
  cases hd : decode w.keystream (runtime_mem w) 0 w.runtime_chunk.length 1 with
  | none => exact Or.inl (by simp only [runtime_phase, hd])
  | some m1 =>
    right
    by_cases hsz : size_pred w.runtime_chunk.length ≤ (m1 1).length
    · right
      cases hl : w.loadbuffer "=runtime" ((m1 1).take (size_pred w.runtime_chunk.length)) with
      | some message =>
        left
        refine ⟨_, message, by simp only [runtime_bytes, hd, hsz, if_true], hl, ?_⟩
        simp only [runtime_phase, hd, run_buffer, hsz, if_true, hl, error]
      | none =>
        right
        refine ⟨_, by simp only [runtime_bytes, hd, hsz, if_true], hl, ?_⟩
        simp only [runtime_phase, hd, run_buffer, hsz, if_true, hl]
    · left
      exact ⟨m1 1, by simp only [runtime_phase, hd, run_buffer, hsz, if_false]⟩

theorem runtime_phase_not_on_payload (w : World) :
    ∀ e ∈ (runtime_phase w).1, e.on_payload = false ∧ e.io_error = false := by
  have h2 : ((2 : Nat) == 2) = true := rfl
  have h0 : ((0 : Nat) == 2) = false := rfl
  rcases runtime_phase_cases w with h | ⟨b, h⟩ | ⟨b, msg, _, _, h⟩ | ⟨b, _, _, h⟩ <;>
    rw [h] <;> intro e he <;>
    simp only [List.mem_cons, List.mem_singleton, List.not_mem_nil, or_false] at he <;>
    rcases he with rfl | rfl | rfl | rfl <;>
    simp only [Event.on_payload, Event.io_error, runtime_name_ne, h0, and_self]

theorem read_header_append (host : Endian) (a b : List Nat) (ha : a.length = 8) :
    read_header host (a ++ b) = read_header host a := by
  simp only [read_header]
  rw [List.getD_append _ _ _ 0 (by omega), List.getD_append _ _ _ 1 (by omega),
    List.getD_append _ _ _ 2 (by omega), List.getD_append _ _ _ 3 (by omega),
    List.getD_append _ _ _ 4 (by omega), List.getD_append _ _ _ 5 (by omega),
    List.getD_append _ _ _ 6 (by omega), List.getD_append _ _ _ 7 (by omega)]

/-- The trailer step on a file of at least 8 bytes: the seek and the read succeed and the header
holds the last 8 bytes of the file. -/
theorem trailer_read (file stack : List Nat) (h : 8 ≤ file.length) :
    fseek_end file 0 8 = (true, file.length - 8) ∧
    fread file (file.length - 8) stack 8
      = (true, file.drop (file.length - 8) ++ stack.drop 8, file.length) := by
  have hl : (List.drop (file.length - 8) file).length = 8 := by simp; omega
  refine ⟨by simp [fseek_end, h], ?_⟩
  simp only [fread]
  rw [List.take_of_length_le (by omega), hl]
  simp
  omega

/-- A path shorter than the array `exe` is stored whole and terminated inside the array. -/
theorem get_exe_short_path (w : World) (exe : String) (hexe : w.proc_self_exe = some exe)
    (hpath : exe.utf8ByteSize < 1024) : get_exe w = ([.get_exe], some exe) := by
  simp only [get_exe, hexe, hpath, if_true]

/-- A path of 1024 bytes or more makes `get_exe` store past the array: the run is undefined. -/
theorem payload_phase_long_path (w : World) (exe : String) (hexe : w.proc_self_exe = some exe)
    (hpath : 1024 ≤ exe.utf8ByteSize) : payload_phase w = ([.get_exe], .undefined) := by
  have h : ¬ exe.utf8ByteSize < 1024 := by omega
  simp only [payload_phase, get_exe, hexe, h, if_false]

set_option maxRecDepth 100000 in
theorem long_path_size : long_path.utf8ByteSize = 1024 := by decide

/-- An instance: with the link pointing to a path of 1024 bytes nothing is opened or read. -/
theorem payload_phase_long_path_sample :
    payload_phase { sample_world [] with proc_self_exe := some long_path }
      = ([.get_exe], .undefined) :=
  payload_phase_long_path _ long_path rfl (by rw [long_path_size])

theorem payload_phase_magic_mismatch (w : World) (exe : String) (file : List Nat)
    (hexe : w.proc_self_exe = some exe) (hpath : exe.utf8ByteSize < 1024)
    (hfile : w.files exe = some file)
    (hlen : 8 ≤ file.length)
    (hmagic : letoh w.host (read_header w.host (file.drop (file.length - 8))).magic ≠ w.MAGIC) :
    payload_phase w = ([.get_exe, .fopen exe, .fseek .trailer 8 true, .fread .trailer 8 true,
      .error w.argv0 "Lua application not found"], .aborted) := by
  obtain ⟨hs, hr⟩ := trailer_read file w.stack hlen
  have hl : (List.drop (file.length - 8) file).length = 8 := by simp; omega
  simp only [payload_phase, get_exe_short_path w exe hexe hpath, hfile, hs, hr,
    read_header_append _ _ _ hl, error]
  simp [hmagic]


/-- C6. For every file whose trailer is readable and whose normalised magic differs from
`MAGIC`, the bootstrap (its runtime part done, the executable resolved to a path that fits the
array `exe`, and opened) ends in the "Lua application not found" outcome: that diagnostic comes
from `error`, no step of the run is a failed seek, a failed read or a `perror` report, and no
step seeks to, reads, decodes or executes a payload region. -/
theorem magic_mismatch_not_found (w : World) (exe : String) (file : List Nat)
    (hrt : (runtime_phase w).2 = .ok ())
    (hexe : w.proc_self_exe = some exe) (hpath : exe.utf8ByteSize < 1024)
    (hfile : w.files exe = some file)
    (hlen : 8 ≤ file.length)
    (hmagic : letoh w.host (read_header w.host (file.drop (file.length - 8))).magic ≠ w.MAGIC) :
    main w = ((runtime_phase w).1 ++ [.get_exe, .fopen exe, .fseek .trailer 8 true,
      .fread .trailer 8 true, .error w.argv0 "Lua application not found"], .aborted) ∧
    ∀ e ∈ (main w).1, e.on_payload = false ∧ e.io_error = false := by
  have hm := main_of_runtime_ok w hrt
  rw [payload_phase_magic_mismatch w exe file hexe hpath hfile hlen hmagic] at hm
  refine ⟨hm, ?_⟩
  rw [hm]
  intro e he
  rcases List.mem_append.mp he with h | h
  · exact runtime_phase_not_on_payload w e h
  · simp only [List.mem_cons, List.mem_singleton, List.not_mem_nil, or_false] at h
    rcases h with rfl | rfl | rfl | rfl | rfl <;>
      simp only [Event.on_payload, Event.io_error, Bool.not_true, and_self]

/-- Witness for C6: an executable without bundle, its last 8 bytes are not a trailer. -/
theorem magic_mismatch_not_found_witness :
    main (sample_world [127, 69, 76, 70, 2, 1, 1, 0, 0, 0, 0, 0])
      = ((runtime_phase (sample_world [127, 69, 76, 70, 2, 1, 1, 0, 0, 0, 0, 0])).1
          ++ [.get_exe, .fopen "/bin/app", .fseek .trailer 8 true, .fread .trailer 8 true,
            .error "app" "Lua application not found"], .aborted) ∧
    ∀ e ∈ (main (sample_world [127, 69, 76, 70, 2, 1, 1, 0, 0, 0, 0, 0])).1,
      e.on_payload = false ∧ e.io_error = false :=
  magic_mismatch_not_found (sample_world [127, 69, 76, 70, 2, 1, 1, 0, 0, 0, 0, 0]) "/bin/app"
    [127, 69, 76, 70, 2, 1, 1, 0, 0, 0, 0, 0] (by decide) rfl (by decide) rfl (by decide)
    (by decide)

/-- A read of `size > 0` bytes that are all there, into a buffer of at most `size` bytes. -/
theorem fread_whole (file buf data : List Nat) (pos size : Nat)
    (hdata : (file.drop pos).take size = data) (hlen : data.length = size) (hsz : size ≠ 0)
    (hbuf : buf.length ≤ size) : fread file pos buf size = (true, data, pos + size) := by
  simp only [fread, hdata, hlen, List.drop_eq_nil_of_le hbuf, List.append_nil]
  simp [hsz]

/-- The payload part on a well-formed bundle `pre ++ payload ++ trailer`: every seek and read
succeeds and `decode` is called in place on the payload, with `size` its length. -/
theorem payload_phase_bundle (w : World) (exe : String) (pre payload : List Nat)
    (hexe : w.proc_self_exe = some exe) (hpath : exe.utf8ByteSize < 1024)
    (hfile : w.files exe = some (pre ++ payload ++ write_trailer payload.length w.MAGIC))
    (hne : payload ≠ []) (hn : payload.length < 2 ^ 32) (hM : w.MAGIC < 2 ^ 32) :
    payload_phase w = ([.get_exe, .fopen exe, .fseek .trailer 8 true, .fread .trailer 8 true,
        .fseek .payload (payload.length + 8) true, .fread .payload payload.length true, .fclose]
        ++ (run_payload w payload payload.length).1, (run_payload w payload payload.length).2) := by
  have hT : (write_trailer payload.length w.MAGIC).length = 8 := rfl
  have hp : 0 < payload.length := List.length_pos.mpr hne
  obtain ⟨hsize, hmagic⟩ := letoh_read_header_write_trailer w.host payload.length w.MAGIC hn hM
  generalize hT' : write_trailer payload.length w.MAGIC = T at hfile hT hsize hmagic
  generalize hf : pre ++ payload ++ T = file at hfile
  have hflen : file.length = pre.length + payload.length + 8 := by
    rw [← hf]; simp only [List.length_append, hT]
  obtain ⟨hs, hr⟩ := trailer_read file w.stack (by omega)
  have hdrop : List.drop (file.length - 8) file = T := by
    rw [hflen, Nat.add_sub_cancel, ← hf, List.drop_append_of_le_length (by simp),
      show pre.length + payload.length = (pre ++ payload).length by simp, List.drop_length]
    rfl
  rw [hdrop] at hr
  have hs2 : fseek_end file file.length (payload.length + 8) = (true, pre.length) := by
    simp only [fseek_end, hflen]
    rw [if_pos (by omega)]
    congr 1
    omega
  have hr2 : fread file pre.length (safe_malloc w payload.length) payload.length
      = (true, payload, pre.length + payload.length) := by
    apply fread_whole _ _ _ _ _ _ rfl (by omega) (by simp [safe_malloc])
    rw [← hf, List.append_assoc, List.drop_left, List.take_left]
  simp only [payload_phase, get_exe_short_path w exe hexe hpath, hfile, hs, hr,
    read_header_append _ _ _ hT, hsize, hmagic,
    hs2, hr2, ne_eq, not_true_eq_false, if_false, if_true, List.append_nil, List.cons_append,
    List.nil_append, List.append_assoc]

/-- The selector read of the in-place call on a chunk `body ++ [sel]`. -/
theorem payload_selector (body : List Nat) (sel : Nat) (hn : body.length + 1 < 2 ^ 64) :
    (payload_mem (body ++ [sel])).load 2 (size_pred (body.length + 1)) = some sel := by
  rw [size_pred_succ _ hn]
  simp [Mem.load, payload_mem]

/-- The `default` arm: with a selector that is neither `'-'` nor `'#'`, `decode` returns
without a failure and without touching memory. -/
theorem decode_unknown_selector (ks : Nat → Nat) (m : Mem) (input size output sel : Nat)
    (hload : m.load input (size_pred size) = some sel) (h1 : sel ≠ 45) (h2 : sel ≠ 35) :
    decode ks m input size output = some m := by
  simp only [decode, hload, h1, h2, if_false]

theorem run_payload_of_decode (w : World) (chunk : List Nat) (size : Nat) (m1 : Mem)
    (hd : decode w.keystream (payload_mem chunk) 2 size 2 = some m1)
    (hsz : u32_pred size ≤ (m1 2).length) :
    ∃ rest, (run_payload w chunk size).1
      = .decode 2 size 2 :: .run_buffer "=" (u32_pred size) ((m1 2).take (u32_pred size))
          :: rest := by
  cases hl : w.loadbuffer "=" ((m1 2).take (u32_pred size)) with
  | some message =>
    exact ⟨_, by simp only [run_payload, hd, run_buffer, hsz, if_true, hl, error]; rfl⟩
  | none =>
    exact ⟨_, by simp only [run_payload, hd, run_buffer, hsz, if_true, hl]; rfl⟩

/-- C2 (as stated, refuted). The payload `"x=1X"` ends in `'X'`: `decode` returns normally with
the buffer unchanged, and the bootstrap hands the undecoded bytes `"x=1"` to `run_buffer`, which
executes them. -/
theorem unknown_selector_is_executed :
    (decode (fun _ => 0) (payload_mem [120, 61, 49, 88]) 2 4 2).map (fun m => m 2)
      = some [120, 61, 49, 88] ∧
    main (sample_world bundle_unknown_selector)
      = ([.decode 0 4 1, .run_buffer "=runtime" 3 [97, 61, 49], .pcall "=runtime" 0,
          .get_exe, .fopen "/bin/app", .fseek .trailer 8 true, .fread .trailer 8 true,
          .fseek .payload 12 true, .fread .payload 4 true, .fclose, .decode 2 4 2,
          .run_buffer "=" 3 [120, 61, 49], .pcall "=" 0], .returned 0) := by
  decide

/-- C2 (amended). For every buffer of length at least 1 whose final byte is neither `'-'` nor
`'#'`, `decode` reports no failure and leaves the buffer as it is; on a well-formed bundle with
such a payload, found under a path that fits the array `exe`, the bootstrap goes on and hands
the undecoded bytes before the final byte to `run_buffer` under the name `"="`. -/
theorem unknown_selector_passes_through (w : World) (exe : String) (pre body : List Nat)
    (sel : Nat) (hrt : (runtime_phase w).2 = .ok ())
    (hexe : w.proc_self_exe = some exe) (hpath : exe.utf8ByteSize < 1024)
    (hfile : w.files exe
      = some (pre ++ (body ++ [sel]) ++ write_trailer (body ++ [sel]).length w.MAGIC))
    (h1 : sel ≠ 45) (h2 : sel ≠ 35) (hn : (body ++ [sel]).length < 2 ^ 32)
    (hM : w.MAGIC < 2 ^ 32) :
    decode w.keystream (payload_mem (body ++ [sel])) 2 (body ++ [sel]).length 2
      = some (payload_mem (body ++ [sel])) ∧
    Event.run_buffer "=" body.length body ∈ (main w).1 := by
  have hlen : (body ++ [sel]).length = body.length + 1 := by simp
  have hd : decode w.keystream (payload_mem (body ++ [sel])) 2 (body ++ [sel]).length 2
      = some (payload_mem (body ++ [sel])) := by
    rw [hlen]
    exact decode_unknown_selector _ _ _ _ _ sel
      (payload_selector body sel (by rw [hlen] at hn; omega)) h1 h2
  refine ⟨hd, ?_⟩
  have hpp := payload_phase_bundle w exe pre (body ++ [sel]) hexe hpath hfile (by simp) hn hM
  have hu : u32_pred (body ++ [sel]).length = body.length := by
    rw [hlen]; exact u32_pred_succ _ (by rw [hlen] at hn; exact hn)
  obtain ⟨rest, hrest⟩ := run_payload_of_decode w (body ++ [sel]) (body ++ [sel]).length _ hd
    (by rw [hu]; simp [payload_mem])
  rw [main_of_runtime_ok w hrt, hpp, hrest, hu]
  simp [payload_mem]

/-- Witness for C2 (amended): the bundle with payload `"x=1X"`. -/
theorem unknown_selector_passes_through_witness :
    decode (sample_world bundle_unknown_selector).keystream (payload_mem ([120, 61, 49] ++ [88]))
      2 ([120, 61, 49] ++ [88]).length 2 = some (payload_mem ([120, 61, 49] ++ [88])) ∧
    Event.run_buffer "=" [120, 61, 49].length [120, 61, 49]
      ∈ (main (sample_world bundle_unknown_selector)).1 :=
  unknown_selector_passes_through (sample_world bundle_unknown_selector) "/bin/app"
    [127, 69, 76, 70] [120, 61, 49] 88 (by decide) rfl (by decide) rfl (by decide) (by decide)
    (by decide) (by decide)

/-- C7 (failing input). On the truncated bundle the seek to the payload and the read of the
payload both fail; `perror` prints and the run goes on: `decode` is called on the buffer that
was never filled and `run_buffer` executes what it holds. -/
theorem payload_read_failure_is_not_fatal :
    main (sample_world bundle_truncated)
      = ([.decode 0 4 1, .run_buffer "=runtime" 3 [97, 61, 49], .pcall "=runtime" 0,
          .get_exe, .fopen "/bin/app", .fseek .trailer 8 true, .fread .trailer 8 true,
          .fseek .payload 24 false, .fread .payload 16 false, .perror "app", .fclose,
          .decode 2 16 2, .run_buffer "=" 15 [0, 0, 0, 0, 0, 0, 0, 0, 0, 0, 0, 0, 0, 0, 0],
          .pcall "=" 0], .returned 0) := by
  decide

/-- C10 (failing input). With a matching magic and `payload_size = 0` the read of 0 bytes
returns 0, `perror` prints and the run goes on: `decode` is called with `size = 0`, its
selector read `input[size-1]` has index `2^64-1` and is outside the empty buffer, and the
length `header.size-1` that `run_buffer` would be handed is `2^32-1`. -/
theorem empty_payload_decode_out_of_bounds :
    main (sample_world bundle_empty_payload)
      = ([.decode 0 4 1, .run_buffer "=runtime" 3 [97, 61, 49], .pcall "=runtime" 0,
          .get_exe, .fopen "/bin/app", .fseek .trailer 8 true, .fread .trailer 8 true,
          .fseek .payload 8 true, .fread .payload 0 false, .perror "app", .fclose,
          .decode 2 0 2], .undefined) ∧
    size_pred 0 = 2 ^ 64 - 1 ∧
    (payload_mem []).load 2 (size_pred 0) = none ∧
    u32_pred 0 = 2 ^ 32 - 1 := by
  decide

/-- C8 (as stated, refuted). The protected call on the runtime chunk returns `LUA_ERRRUN`; the
bootstrap goes on, locates and reads the payload, decodes and executes it, and returns 0. -/
theorem runtime_status_is_ignored :
    main (failing_runtime_world bundle_running_sum)
      = ([.decode 0 4 1, .run_buffer "=runtime" 3 [97, 61, 49], .pcall "=runtime" 2,
          .get_exe, .fopen "/bin/app", .fseek .trailer 8 true, .fread .trailer 8 true,
          .fseek .payload 12 true, .fread .payload 4 true, .fclose, .decode 2 4 2,
          .run_buffer "=" 3 [120, 61, 49], .pcall "=" 0], .returned 0) := by
  decide

/-- C8 (amended). A compile failure of the `"=runtime"` chunk is fatal: `run_buffer` goes to
`error` and the bootstrap ends there, before the payload is located, read, decoded or executed.
When the chunk compiles, the status of its protected call, success or not, is not looked at:
the bootstrap goes on with the payload part. -/
theorem runtime_compile_failure_fatal_status_ignored (w : World) (bytes : List Nat)
    (h : runtime_bytes w = some bytes) :
    (∀ message, w.loadbuffer "=runtime" bytes = some message →
      main w = ([.decode 0 w.runtime_chunk.length 1,
        .run_buffer "=runtime" (size_pred w.runtime_chunk.length) bytes,
        .error w.argv0 message], .aborted)) ∧
    (w.loadbuffer "=runtime" bytes = none →
      main w = ([.decode 0 w.runtime_chunk.length 1,
        .run_buffer "=runtime" (size_pred w.runtime_chunk.length) bytes,
        .pcall "=runtime" (w.pcall "=runtime" bytes)] ++ (payload_phase w).1,
        (payload_phase w).2)) := by
  rcases runtime_phase_cases w with hr | ⟨b, hr⟩ | ⟨b, msg, hb, hl, hr⟩ | ⟨b, hb, hl, hr⟩
  · exfalso
    cases hd : decode w.keystream (runtime_mem w) 0 w.runtime_chunk.length 1 with
    | none => simp [runtime_bytes, hd] at h
    | some m1 =>
      by_cases hsz : size_pred w.runtime_chunk.length ≤ (m1 1).length
      · cases hl : w.loadbuffer "=runtime" ((m1 1).take (size_pred w.runtime_chunk.length)) <;>
          simp [runtime_phase, hd, run_buffer, hsz, hl, error] at hr
      · simp [runtime_bytes, hd, hsz] at h
  · exfalso
    cases hd : decode w.keystream (runtime_mem w) 0 w.runtime_chunk.length 1 with
    | none => simp [runtime_bytes, hd] at h
    | some m1 =>
      by_cases hsz : size_pred w.runtime_chunk.length ≤ (m1 1).length
      · cases hl : w.loadbuffer "=runtime" ((m1 1).take (size_pred w.runtime_chunk.length)) <;>
          simp [runtime_phase, hd, run_buffer, hsz, hl, error] at hr
      · simp [runtime_bytes, hd, hsz] at h
  · rw [h] at hb
    cases hb
    refine ⟨fun message hm => ?_, fun hn => ?_⟩
    · rw [hl] at hm
      cases hm
      simp only [main, hr]
    · rw [hl] at hn
      cases hn
  · rw [h] at hb
    cases hb
    refine ⟨fun message hm => ?_, fun _ => ?_⟩
    · rw [hl] at hm
      cases hm
    · simp only [main, hr]

/-- Witness for C8 (amended): the sample world, whose runtime chunk decodes to `"a=1"`. -/
theorem runtime_compile_failure_fatal_status_ignored_witness :
    (∀ message, (failing_runtime_world bundle_running_sum).loadbuffer "=runtime" [97, 61, 49]
        = some message →
      main (failing_runtime_world bundle_running_sum)
        = ([.decode 0 (failing_runtime_world bundle_running_sum).runtime_chunk.length 1,
          .run_buffer "=runtime"
            (size_pred (failing_runtime_world bundle_running_sum).runtime_chunk.length)
            [97, 61, 49],
          .error (failing_runtime_world bundle_running_sum).argv0 message], .aborted)) ∧
    ((failing_runtime_world bundle_running_sum).loadbuffer "=runtime" [97, 61, 49] = none →
      main (failing_runtime_world bundle_running_sum)
        = ([.decode 0 (failing_runtime_world bundle_running_sum).runtime_chunk.length 1,
          .run_buffer "=runtime"
            (size_pred (failing_runtime_world bundle_running_sum).runtime_chunk.length)
            [97, 61, 49],
          .pcall "=runtime"
            ((failing_runtime_world bundle_running_sum).pcall "=runtime" [97, 61, 49])]
          ++ (payload_phase (failing_runtime_world bundle_running_sum)).1,
          (payload_phase (failing_runtime_world bundle_running_sum)).2)) :=
  runtime_compile_failure_fatal_status_ignored (failing_runtime_world bundle_running_sum)
    [97, 61, 49] (by decide)

end Luax
